/-
Verification of the ingestion-to-aggregation pipeline of the nba-hate-tracker
repository against its natural-language specification.

Each Python function named in a claim is shallowly embedded as an executable
Lean definition translated from the source.  External library behaviour
(`json.loads`, `float(str)`, the Anthropic API, the filesystem) is modelled
by explicit oracle parameters or by a small state type, as noted at each
definition.  Machine floats are modelled as exact rationals: every numeric
computation the claims mention (rates, rounding to four decimals, counts)
is exact at the inputs the claims discuss.
-/

import Mathlib

/-! ### Python string primitives

Executable models of the Python `str` operations the pipeline uses,
working on code-point lists so that they reduce definitionally. -/

/-- The whitespace characters stripped by Python's `str.strip()` (ASCII
range; astral whitespace is not modelled). -/
def pyIsSpace (c : Char) : Bool :=
  c == ' ' || c == '\t' || c == '\n' || c == '\r' ||
  c == '\x0b' || c == '\x0c'

/-- Python `str.strip()`: remove leading and trailing whitespace. -/
def pyStrip (s : String) : String :=
  ⟨((s.data.dropWhile pyIsSpace).reverse.dropWhile pyIsSpace).reverse⟩

/-- Python `str.startswith(pat)`. -/
def pyStartsWith (s pat : String) : Bool :=
  pat.data.isPrefixOf s.data

/-- Python `str.endswith(pat)`. -/
def pyEndsWith (s pat : String) : Bool :=
  pat.data.reverse.isPrefixOf s.data.reverse

/-- Python slicing `s[n:]` (by code point). -/
def pyDrop (s : String) (n : Nat) : String := ⟨s.data.drop n⟩

/-- Python slicing `s[:-n]` for `0 < n ≤ len s` (by code point). -/
def pyDropRight (s : String) (n : Nat) : String :=
  ⟨(s.data.reverse.drop n).reverse⟩

/-- Python substring containment `pat in hay` on code-point lists. -/
def subListOf (pat : List Char) : List Char → Bool
  | [] => pat.isEmpty
  | c :: rest => pat.isPrefixOf (c :: rest) || subListOf pat rest

/-- Python `pat in hay` for strings. -/
def pyInStr (hay pat : String) : Bool := subListOf pat.data hay.data

/-- Python `str.lower()` (ASCII case folding; the alias tables and flair
text the pipeline compares are ASCII). -/
def pyLower (s : String) : String := ⟨s.data.map Char.toLower⟩

/-- Python `s.replace(old, "")` on code-point lists: remove all
non-overlapping occurrences of `old`, scanning left to right.  The fuel
argument (instantiated with the input length) only makes the recursion
structural; it never runs out. -/
def removeAllAux (old : List Char) : Nat → List Char → List Char
  | 0, l => l
  | _ + 1, [] => []
  | fuel + 1, c :: rest =>
    if old.isPrefixOf (c :: rest) && !old.isEmpty then
      removeAllAux old fuel ((c :: rest).drop old.length)
    else
      c :: removeAllAux old fuel rest

/-- Python `s.replace(old, "")`. -/
def pyRemove (s old : String) : String :=
  ⟨removeAllAux old.data s.data.length s.data⟩

/-- Python `s.split(sep)` for a one-character separator. -/
def splitOnChar (sep : Char) : List Char → List (List Char)
  | [] => [[]]
  | c :: rest =>
    let r := splitOnChar sep rest
    if c == sep then [] :: r
    else
      match r with
      | h :: t => (c :: h) :: t
      | [] => [[c]]

/-- Python `int(s)` restricted to unsigned decimal digit strings (the
batch-file names contain no sign or whitespace); `none` models the
`ValueError` on anything else. -/
def pyInt? (s : List Char) : Option Nat :=
  if s.isEmpty then none
  else
    let rec go : List Char → Nat → Option Nat
      | [], acc => some acc
      | c :: rest, acc =>
        if c.isDigit then go rest (acc * 10 + (c.toNat - '0'.toNat)) else none
    go s 0

namespace Batch

/-- A JSON value as produced by Python's `json.loads`: objects are ordered
association lists of string keys (Python dicts preserve insertion order),
numbers are modelled as exact rationals. -/
inductive Json where
  | null : Json
  | bool (b : Bool) : Json
  | num (q : ℚ) : Json
  | str (s : String) : Json
  | arr (xs : List Json) : Json
  | obj (kvs : List (String × Json)) : Json

/-- Python `x == "s"` for a `json.loads` value: only the string `"s"`
compares equal; values of other types are never equal to a string. -/
def jsonEqStrS : Json → Bool
  | Json.str s => s == "s"
  | _ => false

/-- Python exception classes relevant to `pipeline/batch.py:parse_response`.
The function's `except` clause catches `json.JSONDecodeError`, `ValueError`
and `TypeError`; any other exception propagates to the caller. -/
inductive PyExc where
  | jsonDecodeError
  | typeError
  | valueError
  | attributeError
  | keyError
deriving DecidableEq, Repr

/-- Python's `"s" in result` for an arbitrary `json.loads` value:
key membership on a dict, substring containment on a string, element
membership on a list, and a `TypeError` on `None`, booleans and numbers. -/
def pyContainsKeyS : Json → Except PyExc Bool
  | Json.obj kvs => .ok (kvs.any (fun kv => kv.1 == "s"))
  | Json.str s => .ok (pyInStr s "s")
  | Json.arr xs => .ok (xs.any jsonEqStrS)
  | _ => .error .typeError

/-- Python's `result.get(key, default)`: only dicts have a `.get` method;
on any other value an `AttributeError` is raised. -/
def pyGet (j : Json) (key : String) (dflt : Json) : Except PyExc Json :=
  match j with
  | Json.obj kvs => .ok ((kvs.lookup key).getD dflt)
  | _ => .error .attributeError

/-- Python's `result[key]` subscript on the parsed value: a present dict key
yields its value, a missing key a `KeyError`, a non-dict a `TypeError`. -/
def pyIndex (j : Json) (key : String) : Except PyExc Json :=
  match j with
  | Json.obj kvs =>
    match kvs.lookup key with
    | some v => .ok v
    | none => .error .keyError
  | _ => .error .typeError

/-- Python's `float(x)` on a `json.loads` value.  Numbers and booleans
convert; strings go through an oracle `floatOf` standing for Python's
numeric-string parser (`none` models a `ValueError`); `None`, lists and
dicts raise a `TypeError`. -/
def pyFloat (floatOf : String → Option ℚ) : Json → Except PyExc ℚ
  | Json.num q => .ok q
  | Json.bool b => .ok (if b then 1 else 0)
  | Json.str s =>
    match floatOf s with
    | some q => .ok q
    | none => .error .valueError
  | _ => .error .typeError

/-- Python `sentiment not in ("pos", "neg", "neu")`, negated: tuple
membership uses `==`, so only the three exact strings pass. -/
def isValidSentiment : Json → Bool
  | Json.str s => s == "pos" || s == "neg" || s == "neu"
  | _ => false

/-- The dict returned by `parse_response`: sentiment label, confidence,
player field (any JSON value; `Json.null` is Python `None`), and the `raw`
key that is present only on the error variant. -/
structure ParseOut where
  s : String
  c : ℚ
  p : Json
  raw : Option String

/-- The error variant `{"s": "error", "c": 0.0, "p": None, "raw": text}`. -/
def errorResult (text : String) : ParseOut :=
  { s := "error", c := 0, p := Json.null, raw := some text }

/-- The body of the `try` block of `parse_response`, applied to the value
returned by `json.loads`: array unwrapping, label-field presence check,
label validation, and construction of the success dict.  An `.error`
value is an exception escaping the `try` body. -/
def parseTryBody (floatOf : String → Option ℚ) (text : String)
    (loaded : Json) : Except PyExc ParseOut :=
  let unwrapped : Option Json :=
    match loaded with
    | Json.arr [] => none
    | Json.arr (x :: _) => some x
    | j => some j
  match unwrapped with
  | none => .ok (errorResult text)
  | some result =>
    match pyContainsKeyS result with
    | .error e => .error e
    | .ok hasS =>
      if !hasS then .ok (errorResult text)
      else
        match pyGet result "s" (Json.str "") with
        | .error e => .error e
        | .ok sentiment =>
          if !(isValidSentiment sentiment) then
            .ok (errorResult text)
          else
            match pyIndex result "s" with
            | .error e => .error e
            | .ok sval =>
              match pyGet result "c" (Json.num 0) with
              | .error e => .error e
              | .ok cval =>
                match pyFloat floatOf cval with
                | .error e => .error e
                | .ok c =>
                  match pyGet result "p" Json.null with
                  | .error e => .error e
                  | .ok pval =>
                    match sval with
                    | Json.str sv => .ok { s := sv, c := c, p := pval, raw := none }
                    | _ => .ok { s := "", c := c, p := pval, raw := none }

/-- Strip a leading markdown code fence, as in `parse_response`. -/
def stripFence (cleaned : String) : String :=
  let cleaned :=
    if pyStartsWith cleaned "```json" then pyDrop cleaned 7
    else if pyStartsWith cleaned "```" then pyDrop cleaned 3
    else cleaned
  let cleaned := if pyEndsWith cleaned "```" then pyDropRight cleaned 3 else cleaned
  pyStrip cleaned

/-- `pipeline/batch.py:parse_response`.  `loads` is an oracle for
`json.loads` (`none` models a `json.JSONDecodeError`), `floatOf` for
Python's numeric-string parsing inside `float()`.  A `.error` result is an
exception propagating out of `parse_response` to its caller. -/
def parse_response (floatOf : String → Option ℚ) (loads : String → Option Json)
    (text : String) : Except PyExc ParseOut :=
  if pyStrip text == "" then .ok (errorResult text)
  else
    let cleaned := stripFence (pyStrip text)
    match loads cleaned with
    | none => .ok (errorResult text)
    | some loaded =>
      match parseTryBody floatOf text loaded with
      | .ok r => .ok r
      | .error .jsonDecodeError => .ok (errorResult text)
      | .error .valueError => .ok (errorResult text)
      | .error .typeError => .ok (errorResult text)
      | .error e => .error e

/-! ### State persistence (`init_state`, `load_state`, `save_state`) -/

/-- A directory, as an association list from file name to contents. -/
abbrev FS := List (String × String)

/-- Contents of a file, `none` when absent. -/
def fsGet (fs : FS) (p : String) : Option String := fs.lookup p

/-- Create or overwrite a file. -/
def fsSet (fs : FS) (p v : String) : FS :=
  (p, v) :: fs.filter (fun kv => kv.1 != p)

/-- Delete a file (`Path.unlink(missing_ok=True)`). -/
def fsErase (fs : FS) (p : String) : FS :=
  fs.filter (fun kv => kv.1 != p)

/-- `pipeline/batch.py:save_state`, as a transition on the directory that
holds the state file.  `tempName` is the name drawn by
`tempfile.NamedTemporaryFile` (which creates the file on entry);
`dump` is the serialized text produced by `json.dump`, with `none`
modelling a serialization failure raised inside the `with` block (the
context manager closes the handle but, with `delete=False`, keeps the
file); `renameOk := false` models a failing `os.replace`, whose handler
unlinks the temporary file and re-raises.  `.error fs` is the directory
left behind when `save_state` raises. -/
def save_state (fs : FS) (tempName statePath : String)
    (dump : Option String) (renameOk : Bool) : Except FS FS :=
  let fs1 := fsSet fs tempName ""
  match dump with
  | none => .error fs1
  | some contents =>
    let fs2 := fsSet fs1 tempName contents
    if renameOk then
      .ok (fsSet (fsErase fs2 tempName) statePath contents)
    else
      .error (fsErase fs2 tempName)

/-- The key/default pairs of `pipeline/batch.py:init_state`, in insertion
order (`0`, `0`, `0.0` and `[]` are modelled as `Json.num 0`, `Json.num 0`,
`Json.num 0` and `Json.arr []`). -/
def initStatePairs : List (String × Json) :=
  [("total_input_tokens", Json.num 0),
   ("total_output_tokens", Json.num 0),
   ("estimated_cost_usd", Json.num 0),
   ("batches", Json.arr [])]

/-- `pipeline/batch.py:init_state`. -/
def init_state : List (String × Json) := initStatePairs

/-- One iteration of the repair loop of `load_state`: `if key not in
state: state[key] = default_value` (a fresh dict key is appended at the
end, per Python dict insertion order). -/
def addMissing (st : List (String × Json)) (key : String) (dv : Json) :
    List (String × Json) :=
  if st.any (fun kv => kv.1 == key) then st else st ++ [(key, dv)]

/-- `pipeline/batch.py:load_state`.  The argument is the parsed JSON
document of the state file (`none` when `state_path` does not exist); the
state file is written by `save_state` from a dict, so the document is an
object, given as its key/value list. -/
def load_state (file : Option (List (String × Json))) : List (String × Json) :=
  match file with
  | none => init_state
  | some st => initStatePairs.foldl (fun acc kd => addMissing acc kd.1 kd.2) st

end Batch

namespace SubmitBatches

/-- One entry of `state["batches"]` as appended by
`scripts/submit_batches.py:submit_batches`. -/
structure BatchEntry where
  batch_num : Nat
  batch_id : String
  request_file : String
  status : String
  submitted_at : String
  ended_at : Option String
  results_url : Option String
  results_downloaded : Bool
deriving DecidableEq, Repr

/-- The in-memory state dict, restricted to the fields the submission
script reads and writes. -/
structure BState where
  batches : List BatchEntry
deriving DecidableEq, Repr

/-- The outcome of one `submit_batch` API call plus the
`datetime.now(timezone.utc)` timestamp taken when the entry is built;
both are external effects, supplied per request file by an oracle. -/
structure SubmitOutcome where
  batch_id : String
  processing_status : String
  submitted_at : String
  ended_at : Option String
  results_url : Option String
deriving DecidableEq, Repr

/-- `scripts/submit_batches.py:is_batch_submitted`. -/
def is_batch_submitted (state : BState) (filename : String) : Bool :=
  state.batches.any (fun b => b.request_file == filename)

/-- `scripts/submit_batches.py:extract_batch_num`: strip the `.jsonl`
suffix, split on underscore, parse field 1 as an integer.  `none` models
the `IndexError`/`ValueError` a malformed name would raise. -/
def extract_batch_num (filename : String) : Option Nat :=
  match (splitOnChar '_' (pyRemove filename ".jsonl").data).get? 1 with
  | none => none
  | some numChars => pyInt? numChars

/-- The submission loop body of `submit_batches`: for each pending file,
derive the batch number, call the API (the `oracle`), append the new
entry to `state["batches"]`, and persist.  Persistence does not change
the in-memory state, so it is not part of this pure model.  `.error f`
models a run aborted by an exception while handling file `f` (the state
already saved is not needed by the claims). -/
def submitLoop (oracle : String → SubmitOutcome) :
    List String → BState → Except String BState
  | [], st => .ok st
  | f :: rest, st =>
    match extract_batch_num f with
    | none => .error f
    | some n =>
      let out := oracle f
      let entry : BatchEntry :=
        { batch_num := n, batch_id := out.batch_id, request_file := f,
          status := out.processing_status, submitted_at := out.submitted_at,
          ended_at := out.ended_at, results_url := out.results_url,
          results_downloaded := false }
      submitLoop oracle rest { st with batches := st.batches ++ [entry] }

/-- `scripts/submit_batches.py:submit_batches`, over the list of prepared
request-file names.  Pending files are those whose name is not yet a
`request_file` of the state; `maxBatches` is the `--batches N` cap. -/
def submit_batches (files : List String) (oracle : String → SubmitOutcome)
    (st : BState) (maxBatches : Option Nat) : Except String BState :=
  let pending := files.filter (fun f => !is_batch_submitted st f)
  let pending :=
    match maxBatches with
    | some n => pending.take n
    | none => pending
  submitLoop oracle pending st

end SubmitBatches

namespace Aggregation

/-- `pipeline/aggregation.py:resolve_player`.  `alias_map` maps lowercase
aliases to canonical player names, as built by
`utils/player_config.py:build_alias_to_player_map`. -/
def resolve_player (mentioned_players : Option (List String))
    (sentiment_player : Option String)
    (alias_map : List (String × String)) : Option String :=
  match mentioned_players with
  | none => none
  | some [] => none
  | some [player] => some ((alias_map.lookup (pyLower player)).getD player)
  | some (_ :: _ :: _) =>
    match sentiment_player with
    | none => none
    | some sp =>
      if sp == "" then none
      else if alias_map.any (fun kv => kv.2 == sp) then some sp
      else alias_map.lookup (pyLower sp)

/-- Python's `sorted(aliases, key=len, reverse=True)`: a stable sort with
longer strings first, modelled by the (stable) insertion sort. -/
def sortByLenDesc (l : List String) : List String :=
  List.insertionSort (fun a b => b.length ≤ a.length) l

/-- `pipeline/aggregation.py:extract_team_from_flair`.  `alias_to_team`
maps lowercase aliases to canonical team names, as built by
`utils/team_config.py:build_alias_to_team_map`. -/
def extract_team_from_flair (flair_text : Option String)
    (alias_to_team : List (String × String)) : Option String :=
  match flair_text with
  | none => none
  | some s =>
    if s == "" then none
    else
      let flair_lower := pyLower s
      match (sortByLenDesc (alias_to_team.map Prod.fst)).find?
          (fun al => pyInStr flair_lower al) with
      | some al => alias_to_team.lookup al
      | none => none

/-- Rounding to four decimal places (`.round(4)`), on exact rationals,
rounding half up: `⌊q·10⁴ + 1/2⌋ / 10⁴`, with the floor written as an
explicit floor division so that it evaluates. -/
def round4 (q : ℚ) : ℚ :=
  ((Int.fdiv (q * 10000 + 1 / 2).num ((q * 10000 + 1 / 2).den : ℤ)) : ℚ) / 10000

/-- One output row of `compute_metrics`: the grouping key, the per-label
counts, the total, and the four derived rates. -/
structure MetricsRow (κ : Type) where
  key : κ
  neg_count : Nat
  pos_count : Nat
  neu_count : Nat
  comment_count : Nat
  neg_rate : ℚ
  pos_rate : ℚ
  net_sentiment : ℚ
  polarization : ℚ
deriving DecidableEq, Repr

/-- `pipeline/aggregation.py:compute_metrics` on records given as
(grouping key, sentiment label) pairs: group by key, count each label
and the group size, then derive the four rounded rates.  (The polars
`group_by` emits groups in no guaranteed order; this model uses one
concrete enumeration of the distinct keys.) -/
def compute_metrics {κ : Type} [DecidableEq κ] (rows : List (κ × String)) :
    List (MetricsRow κ) :=
  ((rows.map Prod.fst).dedup).map (fun k =>
    let grp := rows.filter (fun r => decide (r.1 = k))
    let neg := (grp.filter (fun r => r.2 == "neg")).length
    let pos := (grp.filter (fun r => r.2 == "pos")).length
    let neu := (grp.filter (fun r => r.2 == "neu")).length
    let total := grp.length
    { key := k, neg_count := neg, pos_count := pos, neu_count := neu,
      comment_count := total,
      neg_rate := round4 ((neg : ℚ) / (total : ℚ)),
      pos_rate := round4 ((pos : ℚ) / (total : ℚ)),
      net_sentiment := round4 (((pos : ℚ) - (neg : ℚ)) / (total : ℚ)),
      polarization := round4 (((pos : ℚ) + (neg : ℚ)) / (total : ℚ)) })

/-- One row of the `player_temporal` input of
`compute_cumulative_metrics`: weekly per-player counts.  Weeks are the
parsed dates, modelled as naturals (only their order matters). -/
structure WeeklyRow where
  player : String
  week : Nat
  neg_count : Nat
  comment_count : Nat
deriving DecidableEq, Repr

/-- One output row of `compute_cumulative_metrics`. -/
structure CumRow where
  player : String
  week : Nat
  cum_neg : Nat
  cum_total : Nat
  cum_neg_rate : ℚ
deriving DecidableEq, Repr

/-- The weekly (neg, total) counts of a player, `0`/`0` for a week with
no row — the left join against the player × week grid followed by
`fill_null(0)`.  The input has at most one row per (player, week) pair,
being the output of a grouped aggregation. -/
def weekCounts (rows : List WeeklyRow) (p : String) (w : Nat) : Nat × Nat :=
  match rows.find? (fun r => r.player == p && r.week == w) with
  | some r => (r.neg_count, r.comment_count)
  | none => (0, 0)

/-- Running cumulative rows of one player over its (ascending) week
list: the `cum_sum().over("attributed_player")` of the sorted frame,
together with the derived rounded rate.  (When the cumulative total is
zero the float division of the source yields a non-number; the model
returns `round4 0` there, and no claim touches that value.) -/
def cumRowsFor (rows : List WeeklyRow) (p : String) :
    List Nat → Nat → Nat → List CumRow
  | [], _, _ => []
  | w :: ws, accNeg, accTotal =>
    let nt := weekCounts rows p w
    let accNeg' := accNeg + nt.1
    let accTotal' := accTotal + nt.2
    { player := p, week := w, cum_neg := accNeg', cum_total := accTotal',
      cum_neg_rate := round4 ((accNeg' : ℚ) / (accTotal' : ℚ)) } ::
      cumRowsFor rows p ws accNeg' accTotal'

/-- The distinct players of the non-stub frame, in sorted order (the
`unique()` of the grid construction followed by the final sort by
player). -/
def gridPlayers (rows' : List WeeklyRow) : List String :=
  List.insertionSort (fun a b => a ≤ b) ((rows'.map (fun r => r.player)).dedup)

/-- The distinct weeks of the non-stub frame, in ascending order (the
`unique()` of the grid construction followed by the final sort by
week). -/
def gridWeeks (rows' : List WeeklyRow) : List Nat :=
  List.insertionSort (fun a b => a ≤ b) ((rows'.map (fun r => r.week)).dedup)

/-- The cumulative negative count of player `p` up to and including week
`w`: the sum of the zero-filled weekly negative counts over the grid
weeks not later than `w`. -/
def cumNegUpTo (rows' : List WeeklyRow) (p : String) (weeks : List Nat)
    (w : Nat) : Nat :=
  ((weeks.filter (fun w' => w' ≤ w)).map (fun w' => (weekCounts rows' p w').1)).sum

/-- The cumulative total count of player `p` up to and including week
`w`. -/
def cumTotalUpTo (rows' : List WeeklyRow) (p : String) (weeks : List Nat)
    (w : Nat) : Nat :=
  ((weeks.filter (fun w' => w' ≤ w)).map (fun w' => (weekCounts rows' p w').2)).sum

/-- `pipeline/aggregation.py:compute_cumulative_metrics`: drop the stub
(maximum) week, build the full player × remaining-week grid with zero
fills, and emit per-player cumulative counts and rates in week order,
players in sorted order. -/
def compute_cumulative_metrics (rows : List WeeklyRow) : List CumRow :=
  match (rows.map (fun r => r.week)).max? with
  | none => []
  | some stub =>
    let rows' := rows.filter (fun r => r.week != stub)
    (gridPlayers rows').flatMap (fun p => cumRowsFor rows' p (gridWeeks rows') 0 0)

end Aggregation

namespace ArcticShift

/-- An archived record: its creation timestamp and an opaque payload
standing for all other fields, so that two distinct records can share a
timestamp. -/
structure ARec where
  created_utc : Nat
  payload : String
deriving DecidableEq, Repr

/-- `pipeline/arctic_shift.py:_fetch_paginated`.  `page a b` is the item
list `_fetch_page` returns for cursor `a` and bound `b` (the archive,
assumed stable between calls).  The source's `while current_after <
before` loop yields each page and advances the cursor to the last item's
`created_utc + 1`; an empty page ends the stream.  The fuel argument
makes the loop a structural recursion; the claims' theorems hold for
every fuel. -/
def fetchPaginated (page : Nat → Nat → List ARec) :
    Nat → Nat → Nat → List ARec
  | 0, _, _ => []
  | fuel + 1, a, b =>
    if a < b then
      let items := page a b
      match items.getLast? with
      | none => []
      | some last => items ++ fetchPaginated page fuel (last.created_utc + 1) b
    else []

/-- A concrete two-record stable archive, served in ascending order
within the requested range. -/
def samplePage (a b : Nat) : List ARec :=
  ([⟨10, "x"⟩, ⟨20, "y"⟩] : List ARec).filter
    (fun r => decide (a ≤ r.created_utc) && decide (r.created_utc < b))

end ArcticShift

namespace Processors

/-- `pipeline/processors.py:CommentPipeline`: the registered steps (name,
function) in order, and the `_stats` dict split into its `total` and
`accepted` entries and the `rejected_<step>` counters (an ordered map
keyed by step name; the `rejected_` prefix keeps them disjoint from the
other two keys). -/
structure CommentPipeline (α : Type) where
  steps : List (String × (α → Option α))
  total : Nat
  accepted : Nat
  rejected : List (String × Nat)

/-- `CommentPipeline.__init__`. -/
def emptyPipeline (α : Type) : CommentPipeline α :=
  { steps := [], total := 0, accepted := 0, rejected := [] }

/-- `CommentPipeline.add_step` (with an explicit name): append the step
and pre-initialize its rejection counter unless the key exists. -/
def add_step {α : Type} (p : CommentPipeline α) (name : String)
    (fn : α → Option α) : CommentPipeline α :=
  { p with
    steps := p.steps ++ [(name, fn)],
    rejected :=
      if p.rejected.any (fun kv => kv.1 == name) then p.rejected
      else p.rejected ++ [(name, 0)] }

/-- A pipeline with all steps added, before any processing. -/
def mkPipeline {α : Type} (steps : List (String × (α → Option α))) :
    CommentPipeline α :=
  steps.foldl (fun p s => add_step p s.1 s.2) (emptyPipeline α)

/-- The step loop of `CommentPipeline.process`: run the steps in order on
the current value; the first step returning `None` rejects, reported by
name. -/
def runChain {α : Type} : List (String × (α → Option α)) → α → Except String α
  | [], c => .ok c
  | (name, fn) :: rest, c =>
    match fn c with
    | none => .error name
    | some c' => runChain rest c'

/-- `self._stats[key] += 1` on the rejection counters: `none` models the
`KeyError` Python would raise if the counter was never initialized. -/
def bumpCounter : List (String × Nat) → String → Option (List (String × Nat))
  | [], _ => none
  | (k, v) :: rest, name =>
    if k == name then some ((k, v + 1) :: rest)
    else (bumpCounter rest name).map (fun r => (k, v) :: r)

/-- `CommentPipeline.process`: increment `total`, run the chain, then
increment `accepted` or the rejecting step's counter.  The result pairs
the returned value with the updated pipeline; `none` models a `KeyError`
on an unregistered counter (unreachable when every step was added through
`add_step`). -/
def process {α : Type} (p : CommentPipeline α) (c : α) :
    Option (Option α × CommentPipeline α) :=
  let total' := p.total + 1
  match runChain p.steps c with
  | .ok c' =>
    some (some c', { p with total := total', accepted := p.accepted + 1 })
  | .error name =>
    match bumpCounter p.rejected name with
    | some rej => some (none, { p with total := total', rejected := rej })
    | none => none

/-- A sequence of `process` calls, keeping only the statistics. -/
def processAll {α : Type} (p : CommentPipeline α) :
    List α → Option (CommentPipeline α)
  | [] => some p
  | c :: cs =>
    match process p c with
    | some (_, p') => processAll p' cs
    | none => none

/-- The sum of all `rejected_<step>` counters. -/
def sumRejected {α : Type} (p : CommentPipeline α) : Nat :=
  (p.rejected.map Prod.snd).sum

end Processors

/-! ## Theorems -/

namespace Batch

/-- C1: the claim that `parse_response` never raises is violated by the
model response `"s"` — a JSON document that is a bare string containing
the letter `s`.  `json.loads` returns a Python `str`, the `"s" not in
result` guard passes by substring containment, and `result.get` then
raises an `AttributeError`, which the `except` clause does not catch. -/
theorem parse_response_uncaught_attributeerror
    (floatOf : String → Option ℚ) (loads : String → Option Json)
    (h : loads "\"s\"" = some (Json.str "s")) :
    parse_response floatOf loads "\"s\"" = Except.error PyExc.attributeError := by
  unfold parse_response
  rw [show stripFence (pyStrip "\"s\"") = "\"s\"" from rfl]
  simp only [h]
  rfl

/-- Witness for C1 at a concrete `json.loads` oracle. -/
theorem parse_response_uncaught_attributeerror_witness :
    parse_response (fun _ => none) (fun _ => some (Json.str "s")) "\"s\"" =
      Except.error PyExc.attributeError :=
  parse_response_uncaught_attributeerror _ _ rfl

/-- Looking a key up in a directory filtered on a different key is
unchanged. -/
theorem lookup_filter_ne (fs : FS) (p q : String) (h : p ≠ q) :
    (fs.filter (fun kv => kv.1 != q)).lookup p = fs.lookup p := by
  induction fs with
  | nil => rfl
  | cons kv rest ih =>
    obtain ⟨k, v⟩ := kv
    by_cases hkq : k = q
    · have h1 : ((k, v).1 != q) = false := by simp [hkq]
      have hpk : (p == k) = false := by
        simp [hkq]
        exact h
      simp [List.filter_cons, h1, List.lookup_cons, hpk, ih]
    · have h1 : ((k, v).1 != q) = true := by simp [hkq]
      simp [List.filter_cons, h1, List.lookup_cons, ih]

/-- Looking up the filtered-out key yields nothing. -/
theorem lookup_filter_self (fs : FS) (p : String) :
    (fs.filter (fun kv => kv.1 != p)).lookup p = none := by
  induction fs with
  | nil => rfl
  | cons kv rest ih =>
    obtain ⟨k, v⟩ := kv
    by_cases hkp : k = p
    · have h1 : ((k, v).1 != p) = false := by simp [hkp]
      simp [List.filter_cons, h1, ih]
    · have h1 : ((k, v).1 != p) = true := by simp [hkp]
      have h2 : (p == k) = false := by
        simp
        exact fun hh => hkp hh.symm
      simp [List.filter_cons, h1, List.lookup_cons, h2, ih]

/-- C2 (amended): on every failure of `save_state` the committed state
file is unchanged, and on a failure of the atomic rename (serialization
succeeded, `dump = some contents`) the temporary file has been deleted.
(A failure during serialization leaves the temporary file behind, see the
counterexample.) -/
theorem save_state_failure_behaviour
    (fs : FS) (tempName statePath : String) (dump : Option String)
    (renameOk : Bool) (fs' : FS)
    (hne : tempName ≠ statePath)
    (herr : save_state fs tempName statePath dump renameOk = .error fs') :
    fsGet fs' statePath = fsGet fs statePath ∧
    (∀ contents, dump = some contents → fsGet fs' tempName = none) := by
  have hne' : statePath ≠ tempName := fun hh => hne hh.symm
  cases dump with
  | none =>
    have hfs' : fs' = fsSet fs tempName "" := by
      simpa [save_state] using herr.symm
    subst hfs'
    refine ⟨?_, ?_⟩
    · simp [fsGet, fsSet, List.lookup_cons, show (statePath == tempName) = false by
        simpa using hne', lookup_filter_ne _ _ _ hne']
    · intro contents hc
      cases hc
  | some contents =>
    cases renameOk with
    | true => simp [save_state] at herr
    | false =>
      have hfs' : fs' = fsErase (fsSet (fsSet fs tempName "") tempName contents) tempName := by
        simpa [save_state] using herr.symm
      subst hfs'
      refine ⟨?_, ?_⟩
      · simp [fsGet, fsSet, fsErase, lookup_filter_ne _ _ _ hne',
          List.lookup_cons, show (statePath == tempName) = false by simpa using hne']
      · intro c hc
        simp [fsGet, fsErase, lookup_filter_self]

/-- Witness for C2's amended theorem: a concrete failing rename deletes
the temporary file and leaves the committed contents in place. -/
theorem save_state_failure_behaviour_witness :
    fsGet [(("state.json" : String), ("old" : String))] "state.json" = some "old" ∧
    ∀ fs', save_state [("state.json", "old")] "state.tmp" "state.json"
        (some "new") false = .error fs' →
      fsGet fs' "state.json" = some "old" ∧ fsGet fs' "state.tmp" = none := by
  refine ⟨rfl, fun fs' herr => ?_⟩
  obtain ⟨h1, h2⟩ := save_state_failure_behaviour _ _ _ _ _ _ (by decide) herr
  exact ⟨h1.trans rfl, h2 "new" rfl⟩

/-- C2's counterexample: when serialization (`json.dump`) raises inside
the `with` block, `save_state` propagates the exception but the
temporary file is still present in the directory, contradicting the
claim that any failure deletes it. -/
theorem save_state_dump_failure_keeps_temp :
    save_state [(("state.json" : String), ("old" : String))] "state.tmp" "state.json" none true =
      Except.error [("state.tmp", ""), ("state.json", "old")] ∧
    fsGet [(("state.tmp" : String), ("" : String)), ("state.json", "old")] "state.tmp" = some "" :=
  ⟨rfl, rfl⟩

end Batch

namespace SubmitBatches

/-- `submitLoop` only appends to the batches list. -/
theorem submitLoop_batches_extend (oracle : String → SubmitOutcome) :
    ∀ (fs : List String) (st st' : BState),
      submitLoop oracle fs st = .ok st' →
      ∃ tail, st'.batches = st.batches ++ tail := by
  intro fs
  induction fs with
  | nil =>
    intro st st' h
    exact ⟨[], by simpa [submitLoop] using congrArg BState.batches (by
      simpa [submitLoop] using h.symm)⟩
  | cons f rest ih =>
    intro st st' h
    unfold submitLoop at h
    cases hnum : extract_batch_num f with
    | none => rw [hnum] at h; cases h
    | some n =>
      rw [hnum] at h
      obtain ⟨tail, htail⟩ := ih _ _ h
      exact ⟨_ :: tail, by simpa using htail⟩

/-- A file already recorded stays recorded when batches are appended. -/
theorem is_batch_submitted_of_extend (st st' : BState) (f : String)
    (htail : ∃ tail, st'.batches = st.batches ++ tail)
    (h : is_batch_submitted st f = true) :
    is_batch_submitted st' f = true := by
  obtain ⟨tail, htail⟩ := htail
  unfold is_batch_submitted at h ⊢
  rw [htail, List.any_append, h]
  rfl

/-- After a completed `submitLoop`, every processed file is recorded in
the state under its own name. -/
theorem submitLoop_records (oracle : String → SubmitOutcome) :
    ∀ (fs : List String) (st st' : BState),
      submitLoop oracle fs st = .ok st' →
      ∀ f ∈ fs, is_batch_submitted st' f = true := by
  intro fs
  induction fs with
  | nil => intro st st' _ f hf; cases hf
  | cons g rest ih =>
    intro st st' h f hf
    unfold submitLoop at h
    cases hnum : extract_batch_num g with
    | none => rw [hnum] at h; cases h
    | some n =>
      rw [hnum] at h
      rcases List.mem_cons.mp hf with hfg | hfrest
      · subst hfg
        refine is_batch_submitted_of_extend _ _ _ (submitLoop_batches_extend _ _ _ _ h) ?_
        unfold is_batch_submitted
        simp
      · exact ih _ _ h f hfrest

/-- C3: submission is idempotent by request-file name — a second
`submit_batches` run over the same file list, starting from the state a
completed first run produced, submits nothing and returns the state
unchanged (so the recorded set of `request_file` entries is that of a
single run). -/
theorem submit_batches_idempotent
    (files : List String) (oracle : String → SubmitOutcome) (st st₁ : BState)
    (h : submit_batches files oracle st none = .ok st₁) :
    submit_batches files oracle st₁ none = .ok st₁ := by
  unfold submit_batches at h ⊢
  have hall : ∀ f ∈ files, is_batch_submitted st₁ f = true := by
    intro f hf
    by_cases hsub : is_batch_submitted st f = true
    · exact is_batch_submitted_of_extend _ _ _
        (submitLoop_batches_extend _ _ _ _ h) hsub
    · refine submitLoop_records _ _ _ _ h f ?_
      refine List.mem_filter.mpr ⟨hf, ?_⟩
      simp only [Bool.not_eq_true] at hsub
      simp [hsub]
  have hempty : files.filter (fun f => !is_batch_submitted st₁ f) = [] := by
    refine List.filter_eq_nil_iff.mpr ?_
    intro f hf
    simp [hall f hf]
  rw [hempty]
  rfl

/-- Witness for C3: one file, submitted once, is skipped by the second
run. -/
theorem submit_batches_idempotent_witness :
    submit_batches ["batch_001.jsonl"]
      (fun _ => ⟨"msgbatch_abc", "in_progress", "2024-10-01T00:00:00+00:00", none, none⟩)
      ⟨[⟨1, "msgbatch_abc", "batch_001.jsonl", "in_progress",
         "2024-10-01T00:00:00+00:00", none, none, false⟩]⟩ none =
      .ok ⟨[⟨1, "msgbatch_abc", "batch_001.jsonl", "in_progress",
            "2024-10-01T00:00:00+00:00", none, none, false⟩]⟩ :=
  submit_batches_idempotent _ _ ⟨[]⟩ _ rfl

end SubmitBatches

namespace Batch

/-- If no pair of the object carries key `k`, lookup fails. -/
theorem lookup_none_of_any_false (st : List (String × Json)) (k : String)
    (h : st.any (fun kv => kv.1 == k) = false) : st.lookup k = none := by
  induction st with
  | nil => rfl
  | cons kv rest ih =>
    obtain ⟨k', v⟩ := kv
    simp only [List.any_cons, Bool.or_eq_false_iff] at h
    have hk : (k == k') = false := by
      have := h.1
      simp only [beq_eq_false_iff_ne] at this ⊢
      exact fun hh => this hh.symm
    simp [List.lookup_cons, hk, ih h.2]

/-- If some pair of the object carries key `k`, lookup succeeds. -/
theorem lookup_some_of_any_true (st : List (String × Json)) (k : String)
    (h : st.any (fun kv => kv.1 == k) = true) : ∃ v, st.lookup k = some v := by
  induction st with
  | nil => cases h
  | cons kv rest ih =>
    obtain ⟨k', v⟩ := kv
    by_cases hk : (k == k') = true
    · exact ⟨v, by simp [List.lookup_cons, hk]⟩
    · have hk' : (k == k') = false := by simpa using hk
      have hk'' : (k' == k) = false := by
        simp only [beq_eq_false_iff_ne] at hk' ⊢
        exact fun hh => hk' hh.symm
      simp only [List.any_cons, hk'', Bool.false_or] at h
      obtain ⟨w, hw⟩ := ih h
      exact ⟨w, by simp [List.lookup_cons, hk', hw]⟩

/-- Lookup distributes over append when the key is found on the left. -/
theorem lookup_append_left {st l : List (String × Json)} {k : String} {v : Json}
    (h : st.lookup k = some v) : (st ++ l).lookup k = some v := by
  induction st with
  | nil => cases h
  | cons kv rest ih =>
    obtain ⟨k', w⟩ := kv
    rw [List.cons_append, List.lookup_cons]
    rw [List.lookup_cons] at h
    cases hk : (k == k') with
    | true => rw [hk] at h; exact h
    | false => rw [hk] at h; exact ih h

/-- Lookup distributes over append when the key is absent on the left. -/
theorem lookup_append_right {st : List (String × Json)} {k : String}
    (l : List (String × Json)) (h : st.lookup k = none) :
    (st ++ l).lookup k = l.lookup k := by
  induction st with
  | nil => rfl
  | cons kv rest ih =>
    obtain ⟨k', w⟩ := kv
    rw [List.cons_append, List.lookup_cons]
    rw [List.lookup_cons] at h
    cases hk : (k == k') with
    | true => rw [hk] at h; cases h
    | false => rw [hk] at h; exact ih h

/-- `addMissing` gives key `k` its present value, else the default. -/
theorem addMissing_lookup_self (st : List (String × Json)) (k : String) (d : Json) :
    (addMissing st k d).lookup k = some ((st.lookup k).getD d) := by
  by_cases h : st.any (fun kv => kv.1 == k) = true
  · obtain ⟨v, hv⟩ := lookup_some_of_any_true st k h
    simp [addMissing, h, hv]
  · rw [Bool.not_eq_true] at h
    have hnone := lookup_none_of_any_false st k h
    rw [addMissing, h]
    simp only [Bool.false_eq_true, if_false]
    rw [lookup_append_right _ hnone, hnone]
    simp [List.lookup_cons]

/-- `addMissing` for key `k` does not touch other keys. -/
theorem addMissing_lookup_ne (st : List (String × Json)) (k : String) (d : Json)
    (k' : String) (hne : k' ≠ k) :
    (addMissing st k d).lookup k' = st.lookup k' := by
  unfold addMissing
  by_cases h : st.any (fun kv => kv.1 == k) = true
  · simp [h]
  · rw [Bool.not_eq_true] at h
    simp only [h, Bool.false_eq_true, if_false]
    cases hl : st.lookup k' with
    | some v => exact lookup_append_left hl
    | none =>
      rw [lookup_append_right _ hl]
      have hb : (k' == k) = false := by simpa using hne
      rw [List.lookup_cons, hb]
      rfl

/-- C4: loading the state file written by `save_state` from a state dict
(a JSON object carrying the four state keys) returns exactly the saved
object; and loading any object fills each of the four keys with its
present value, or with the `init_state` default when the key is missing,
instead of raising. -/
theorem load_state_roundtrip_and_defaults :
    (∀ st : List (String × Json),
        (∀ kd ∈ initStatePairs, st.any (fun kv => kv.1 == kd.1) = true) →
        load_state (some st) = st) ∧
    (∀ st : List (String × Json), ∀ kd ∈ initStatePairs,
        (load_state (some st)).lookup kd.1 = some ((st.lookup kd.1).getD kd.2)) := by
  constructor
  · intro st h
    have h1 := h ("total_input_tokens", Json.num 0) (by simp [initStatePairs])
    have h2 := h ("total_output_tokens", Json.num 0) (by simp [initStatePairs])
    have h3 := h ("estimated_cost_usd", Json.num 0) (by simp [initStatePairs])
    have h4 := h ("batches", Json.arr []) (by simp [initStatePairs])
    unfold load_state
    simp only [initStatePairs, List.foldl_cons, List.foldl_nil]
    rw [show addMissing st "total_input_tokens" (Json.num 0) = st by
          simp [addMissing, h1]]
    rw [show addMissing st "total_output_tokens" (Json.num 0) = st by
          simp [addMissing, h2]]
    rw [show addMissing st "estimated_cost_usd" (Json.num 0) = st by
          simp [addMissing, h3]]
    simp [addMissing, h4]
  · intro st kd hkd
    have hunfold : load_state (some st) =
        addMissing (addMissing (addMissing (addMissing st
          "total_input_tokens" (Json.num 0))
          "total_output_tokens" (Json.num 0))
          "estimated_cost_usd" (Json.num 0))
          "batches" (Json.arr []) := rfl
    simp only [initStatePairs, List.mem_cons, List.not_mem_nil, or_false] at hkd
    rcases hkd with rfl | rfl | rfl | rfl
    · rw [hunfold,
        addMissing_lookup_ne _ _ _ _ (by decide),
        addMissing_lookup_ne _ _ _ _ (by decide),
        addMissing_lookup_ne _ _ _ _ (by decide),
        addMissing_lookup_self]
    · rw [hunfold,
        addMissing_lookup_ne _ _ _ _ (by decide),
        addMissing_lookup_ne _ _ _ _ (by decide),
        addMissing_lookup_self,
        addMissing_lookup_ne _ _ _ _ (by decide)]
    · rw [hunfold,
        addMissing_lookup_ne _ _ _ _ (by decide),
        addMissing_lookup_self,
        addMissing_lookup_ne _ _ _ _ (by decide),
        addMissing_lookup_ne _ _ _ _ (by decide)]
    · rw [hunfold,
        addMissing_lookup_self,
        addMissing_lookup_ne _ _ _ _ (by decide),
        addMissing_lookup_ne _ _ _ _ (by decide),
        addMissing_lookup_ne _ _ _ _ (by decide)]

/-- Witness for C4: a full state round-trips unchanged, and an object
missing three of the keys gets them defaulted while keeping its
`batches` value. -/
theorem load_state_roundtrip_and_defaults_witness :
    load_state (some init_state) = init_state ∧
    (load_state (some [("batches", Json.arr [Json.str "x"])])).lookup
        "total_input_tokens" = some (Json.num 0) := by
  constructor
  · exact load_state_roundtrip_and_defaults.1 init_state (by
      intro kd hkd
      simp only [initStatePairs, List.mem_cons, List.not_mem_nil, or_false] at hkd
      rcases hkd with rfl | rfl | rfl | rfl <;> rfl)
  · exact (load_state_roundtrip_and_defaults.2
      [("batches", Json.arr [Json.str "x"])]
      ("total_input_tokens", Json.num 0) (by simp [initStatePairs])).trans rfl

end Batch

namespace Aggregation

/-- A key appearing in an association list has a lookup value. -/
theorem lookup_some_of_mem_keys (m : List (String × String)) (a : String)
    (h : a ∈ m.map Prod.fst) : ∃ t, m.lookup a = some t := by
  induction m with
  | nil => cases h
  | cons kv rest ih =>
    obtain ⟨k, v⟩ := kv
    rcases List.mem_cons.mp h with hk | hrest
    · exact ⟨v, by rw [List.lookup_cons, show (a == k) = true by simpa using hk]⟩
    · cases hb : (a == k) with
      | true => exact ⟨v, by rw [List.lookup_cons, hb]⟩
      | false =>
        obtain ⟨t, ht⟩ := ih hrest
        exact ⟨t, by rw [List.lookup_cons, hb]; exact ht⟩

/-- Unfolding of `extract_team_from_flair` on a present flair. -/
theorem extract_team_some_eq (s : String) (m : List (String × String)) :
    extract_team_from_flair (some s) m =
      if (s == "") = true then none
      else
        match (sortByLenDesc (m.map Prod.fst)).find?
            (fun al => pyInStr (pyLower s) al) with
        | some al => m.lookup al
        | none => none := rfl

/-- The element `find?` returns is maximal among the satisfying elements
of a `Pairwise`-ordered list. -/
theorem find?_max_of_pairwise {α : Type} {r : α → α → Prop} {p : α → Bool}
    {l : List α} {a' : α} (hp : l.Pairwise r) (hfind : l.find? p = some a') :
    ∀ b ∈ l, p b = true → (b = a' ∨ r a' b) := by
  induction l with
  | nil => cases hfind
  | cons x xs ih =>
    rw [List.find?_cons] at hfind
    rcases List.pairwise_cons.mp hp with ⟨hx_all, hxs⟩
    cases hx : p x with
    | true =>
      rw [hx] at hfind
      have hxa : x = a' := by cases hfind; rfl
      intro b hb hpb
      rcases List.mem_cons.mp hb with rfl | hbxs
      · exact Or.inl hxa
      · exact Or.inr (hxa ▸ hx_all b hbxs)
    | false =>
      rw [hx] at hfind
      intro b hb hpb
      rcases List.mem_cons.mp hb with rfl | hbxs
      · rw [hpb] at hx; cases hx
      · exact ih hxs hfind b hbxs hpb

/-- C5: `extract_team_from_flair` lowercases the flair, tries the alias
keys longest-first, and returns the mapped team of the first (hence a
maximal-length) matching alias; null/empty flair and no-match cases
return null.  In particular a flair containing a longer alias that
contains a shorter alias of another team resolves to the longer alias's
team. -/
theorem extract_team_longest_first :
    (∀ m : List (String × String), extract_team_from_flair none m = none) ∧
    (∀ m : List (String × String), extract_team_from_flair (some "") m = none) ∧
    (∀ (s : String) (m : List (String × String)),
        (∀ al ∈ m.map Prod.fst, pyInStr (pyLower s) al = false) →
        extract_team_from_flair (some s) m = none) ∧
    (∀ (s : String) (m : List (String × String)) (a : String),
        a ∈ m.map Prod.fst → pyInStr (pyLower s) a = true → s ≠ "" →
        ∃ chosen team, chosen ∈ m.map Prod.fst ∧
          pyInStr (pyLower s) chosen = true ∧
          (∀ b ∈ m.map Prod.fst, pyInStr (pyLower s) b = true →
            b.length ≤ chosen.length) ∧
          m.lookup chosen = some team ∧
          extract_team_from_flair (some s) m = some team) := by
  have hperm : ∀ l : List String, List.Perm (sortByLenDesc l) l :=
    fun l => List.perm_insertionSort _ l
  refine ⟨fun m => rfl, fun m => rfl, ?_, ?_⟩
  · intro s m hno
    rw [extract_team_some_eq]
    cases hse : (s == "") with
    | true => simp
    | false =>
      have hfind : (sortByLenDesc (m.map Prod.fst)).find?
          (fun al => pyInStr (pyLower s) al) = none := by
        rw [List.find?_eq_none]
        intro al hal
        have : al ∈ m.map Prod.fst := (hperm _).mem_iff.mp hal
        simp [hno al this]
      rw [if_neg (by simp [hse]), hfind]
  · intro s m a hmem hmatch hs
    have hse : (s == "") = false := by simpa using hs
    have hsorted : (sortByLenDesc (m.map Prod.fst)).Pairwise
        (fun x y : String => y.length ≤ x.length) := by
      haveI htot : IsTotal String (fun x y : String => y.length ≤ x.length) :=
        ⟨fun x y => (Nat.le_total y.length x.length).elim Or.inl Or.inr⟩
      haveI htrans : IsTrans String (fun x y : String => y.length ≤ x.length) :=
        ⟨fun _ _ _ h1 h2 => Nat.le_trans h2 h1⟩
      exact List.sorted_insertionSort _ _
    have hmem' : a ∈ sortByLenDesc (m.map Prod.fst) := (hperm _).mem_iff.mpr hmem
    have hfindsome : ((sortByLenDesc (m.map Prod.fst)).find?
        (fun al => pyInStr (pyLower s) al)).isSome := by
      rw [List.find?_isSome]
      exact ⟨a, hmem', hmatch⟩
    obtain ⟨chosen, hfind⟩ := Option.isSome_iff_exists.mp hfindsome
    have hchosen_mem : chosen ∈ m.map Prod.fst :=
      (hperm _).mem_iff.mp (List.mem_of_find?_eq_some hfind)
    have hchosen_match : pyInStr (pyLower s) chosen = true :=
      List.find?_some hfind
    obtain ⟨team, hteam⟩ := lookup_some_of_mem_keys m chosen hchosen_mem
    refine ⟨chosen, team, hchosen_mem, hchosen_match, ?_, hteam, ?_⟩
    · intro b hb hbmatch
      have hb' : b ∈ sortByLenDesc (m.map Prod.fst) := (hperm _).mem_iff.mpr hb
      rcases find?_max_of_pairwise hsorted hfind b hb' hbmatch with rfl | hle
      · exact Nat.le_refl _
      · exact hle
    · rw [extract_team_some_eq, if_neg (by simp [hse]), hfind]
      exact hteam

/-- Witness for C5: a flair containing "hornets" (which contains the
distinct team's alias "nets") resolves to the Hornets, not the Nets. -/
theorem extract_team_longest_first_witness :
    (∃ chosen team,
      chosen ∈ ([("nets", "Brooklyn Nets"),
                 ("hornets", "Charlotte Hornets")].map Prod.fst) ∧
      pyInStr (pyLower "Hornets fan") chosen = true ∧
      (∀ b ∈ ([("nets", "Brooklyn Nets"),
               ("hornets", "Charlotte Hornets")].map Prod.fst),
        pyInStr (pyLower "Hornets fan") b = true → b.length ≤ chosen.length) ∧
      ([("nets", "Brooklyn Nets"),
        ("hornets", "Charlotte Hornets")].lookup chosen) = some team ∧
      extract_team_from_flair (some "Hornets fan")
        [("nets", "Brooklyn Nets"), ("hornets", "Charlotte Hornets")] = some team) ∧
    extract_team_from_flair (some "Hornets fan")
      [("nets", "Brooklyn Nets"), ("hornets", "Charlotte Hornets")] =
      some "Charlotte Hornets" :=
  ⟨extract_team_longest_first.2.2.2 "Hornets fan"
      [("nets", "Brooklyn Nets"), ("hornets", "Charlotte Hornets")] "hornets"
      (by decide) (by decide) (by decide),
   by decide⟩

/-- C6: for a record with exactly one mentioned player, `resolve_player`
returns that player normalized through the alias map (falling back to
the mention itself), for every value of the disambiguation field — which
is never consulted. -/
theorem resolve_player_single_mention
    (p : String) (sp : Option String) (m : List (String × String)) :
    resolve_player (some [p]) sp m = some ((m.lookup (pyLower p)).getD p) ∧
    (∀ sp' : Option String,
      resolve_player (some [p]) sp m = resolve_player (some [p]) sp' m) :=
  ⟨rfl, fun _ => rfl⟩

end Aggregation

namespace Aggregation

/-- C7: every row `compute_metrics` produces carries the per-label
counts and total of its group, and its four rates are exactly the
rounded ratios of those counts (negRate = neg/total, posRate =
pos/total, netSentiment = (pos − neg)/total, polarization =
(pos + neg)/total, each rounded to four decimals); and the group of five
records with 2 negative / 1 positive / 2 neutral yields rates 0.4, 0.2,
−0.2 and 0.6. -/
theorem compute_metrics_rates :
    (∀ (rows : List (String × String)) (row : MetricsRow String),
        row ∈ compute_metrics rows →
        row.neg_count =
          ((rows.filter (fun r => decide (r.1 = row.key))).filter
            (fun r => r.2 == "neg")).length ∧
        row.pos_count =
          ((rows.filter (fun r => decide (r.1 = row.key))).filter
            (fun r => r.2 == "pos")).length ∧
        row.neu_count =
          ((rows.filter (fun r => decide (r.1 = row.key))).filter
            (fun r => r.2 == "neu")).length ∧
        row.comment_count = (rows.filter (fun r => decide (r.1 = row.key))).length ∧
        row.neg_rate = round4 ((row.neg_count : ℚ) / (row.comment_count : ℚ)) ∧
        row.pos_rate = round4 ((row.pos_count : ℚ) / (row.comment_count : ℚ)) ∧
        row.net_sentiment =
          round4 (((row.pos_count : ℚ) - (row.neg_count : ℚ)) / (row.comment_count : ℚ)) ∧
        row.polarization =
          round4 (((row.pos_count : ℚ) + (row.neg_count : ℚ)) / (row.comment_count : ℚ))) ∧
    (({ key := "A", neg_count := 2, pos_count := 1, neu_count := 2,
        comment_count := 5, neg_rate := 2/5, pos_rate := 1/5,
        net_sentiment := -(1/5), polarization := 3/5 } : MetricsRow String) ∈
      compute_metrics
        [("A", "neg"), ("A", "neg"), ("A", "pos"), ("A", "neu"), ("A", "neu")]) := by
  constructor
  · intro rows row hrow
    obtain ⟨k, hk, rfl⟩ := List.mem_map.mp hrow
    exact ⟨rfl, rfl, rfl, rfl, rfl, rfl, rfl, rfl⟩
  · decide!

/-- Witness for C7 at the five-record group: the produced row is in the
output and its negative rate is the rounded ratio 2/5 = 0.4. -/
theorem compute_metrics_rates_witness :
    (({ key := "A", neg_count := 2, pos_count := 1, neu_count := 2,
        comment_count := 5, neg_rate := 2/5, pos_rate := 1/5,
        net_sentiment := -(1/5), polarization := 3/5 } : MetricsRow String) ∈
      compute_metrics
        [("A", "neg"), ("A", "neg"), ("A", "pos"), ("A", "neu"), ("A", "neu")]) ∧
    ({ key := "A", neg_count := 2, pos_count := 1, neu_count := 2,
       comment_count := 5, neg_rate := 2/5, pos_rate := 1/5,
       net_sentiment := -(1/5), polarization := 3/5 } : MetricsRow String).neg_rate =
      round4 ((((2 : Nat)) : ℚ) / (((5 : Nat)) : ℚ)) :=
  ⟨compute_metrics_rates.2,
   (compute_metrics_rates.1 _ _ compute_metrics_rates.2).2.2.2.2.1⟩

end Aggregation

namespace Aggregation

/-- Every row `cumRowsFor` emits belongs to its player and to one of the
supplied weeks. -/
theorem cumRowsFor_mem (rows' : List WeeklyRow) (p : String) :
    ∀ (ws : List Nat) (accN accT : Nat) (r : CumRow),
      r ∈ cumRowsFor rows' p ws accN accT → r.player = p ∧ r.week ∈ ws := by
  intro ws
  induction ws with
  | nil => intro _ _ r hr; cases hr
  | cons w rest ih =>
    intro accN accT r hr
    simp only [cumRowsFor] at hr
    rcases List.mem_cons.mp hr with rfl | htail
    · exact ⟨rfl, List.mem_cons_self _ _⟩
    · obtain ⟨h1, h2⟩ := ih _ _ r htail
      exact ⟨h1, List.mem_cons_of_mem _ h2⟩

/-- `cumRowsFor` emits exactly one row per supplied week, in order. -/
theorem cumRowsFor_weeks (rows' : List WeeklyRow) (p : String) :
    ∀ (ws : List Nat) (accN accT : Nat),
      (cumRowsFor rows' p ws accN accT).map (fun r => r.week) = ws := by
  intro ws
  induction ws with
  | nil => intro _ _; rfl
  | cons w rest ih =>
    intro accN accT
    simp only [cumRowsFor, List.map_cons]
    rw [ih]

/-- On a strictly ascending week list, the accumulators of `cumRowsFor`
are prefix sums: each emitted row carries the sum of the zero-filled
weekly counts over the weeks not later than its own. -/
theorem cumRowsFor_cums (rows' : List WeeklyRow) (p : String) :
    ∀ (ws : List Nat) (accN accT : Nat),
      ws.Pairwise (· < ·) →
      ∀ r ∈ cumRowsFor rows' p ws accN accT,
        r.cum_neg = accN +
          ((ws.filter (fun w' => w' ≤ r.week)).map
            (fun w' => (weekCounts rows' p w').1)).sum ∧
        r.cum_total = accT +
          ((ws.filter (fun w' => w' ≤ r.week)).map
            (fun w' => (weekCounts rows' p w').2)).sum ∧
        r.cum_neg_rate = round4 ((r.cum_neg : ℚ) / (r.cum_total : ℚ)) := by
  intro ws
  induction ws with
  | nil => intro _ _ _ r hr; cases hr
  | cons w rest ih =>
    intro accN accT hpw r hr
    obtain ⟨hw_all, hrest⟩ := List.pairwise_cons.mp hpw
    simp only [cumRowsFor] at hr
    rcases List.mem_cons.mp hr with rfl | htail
    · have hfilter : (w :: rest).filter (fun w' => decide (w' ≤ w)) = [w] := by
        have htail : rest.filter (fun w' => decide (w' ≤ w)) = [] :=
          List.filter_eq_nil_iff.mpr (fun w' hw' => by
            simp only [decide_eq_true_eq]
            exact Nat.not_le.mpr (hw_all w' hw'))
        rw [List.filter_cons, htail, if_pos (by simp)]
      refine ⟨?_, ?_, rfl⟩
      · show accN + (weekCounts rows' p w).1 = accN + _
        rw [hfilter]
        simp
      · show accT + (weekCounts rows' p w).2 = accT + _
        rw [hfilter]
        simp
    · obtain ⟨hcn, hct, hrate⟩ := ih _ _ hrest r htail
      have hrw : r.week ∈ rest := (cumRowsFor_mem rows' p rest _ _ r htail).2
      have hwle : w ≤ r.week := Nat.le_of_lt (hw_all _ hrw)
      have hfilter : (w :: rest).filter (fun w' => decide (w' ≤ r.week)) =
          w :: rest.filter (fun w' => decide (w' ≤ r.week)) := by
        rw [List.filter_cons]
        simp [hwle]
      refine ⟨?_, ?_, hrate⟩
      · rw [hfilter, List.map_cons, List.sum_cons, hcn, Nat.add_assoc]
      · rw [hfilter, List.map_cons, List.sum_cons, hct, Nat.add_assoc]

/-- Filtering the concatenated per-player blocks on one present player
returns exactly that player's block. -/
theorem filter_flatMap_player (players : List String) (f : String → List CumRow)
    (hf : ∀ p' ∈ players, ∀ r ∈ f p', r.player = p')
    (hnd : players.Nodup) (p : String) (hp : p ∈ players) :
    (players.flatMap f).filter (fun r => r.player == p) = f p := by
  induction players with
  | nil => cases hp
  | cons q rest ih =>
    rw [List.flatMap_cons, List.filter_append]
    obtain ⟨hq_notin, hnd'⟩ := List.nodup_cons.mp hnd
    rcases List.mem_cons.mp hp with rfl | hp'
    · have h1 : (f p).filter (fun r => r.player == p) = f p :=
        List.filter_eq_self.mpr (fun r hr => by
          simp [hf p (List.mem_cons_self _ _) r hr])
      have h2 : (rest.flatMap f).filter (fun r => r.player == p) = [] := by
        rw [List.filter_eq_nil_iff]
        intro r hr
        obtain ⟨q', hq', hrq'⟩ := List.mem_flatMap.mp hr
        rw [hf q' (List.mem_cons_of_mem _ hq') r hrq']
        simp only [beq_eq_false_iff_ne, ne_eq, beq_iff_eq]
        exact fun hh => hq_notin (hh ▸ hq')
      rw [h1, h2, List.append_nil]
    · have hqp : q ≠ p := fun hh => hq_notin (hh ▸ hp')
      have h1 : (f q).filter (fun r => r.player == p) = [] := by
        rw [List.filter_eq_nil_iff]
        intro r hr
        rw [hf q (List.mem_cons_self _ _) r hr]
        simp only [beq_iff_eq]
        exact hqp
      rw [h1, List.nil_append]
      exact ih (fun p' h' => hf p' (List.mem_cons_of_mem _ h')) hnd' hp'

end Aggregation

namespace Aggregation

/-- Unfolding of `compute_cumulative_metrics` when a stub week exists. -/
theorem compute_cumulative_eq (rows : List WeeklyRow) (stub : Nat)
    (hstub : (rows.map (fun r => r.week)).max? = some stub) :
    compute_cumulative_metrics rows =
      (gridPlayers (rows.filter (fun r => r.week != stub))).flatMap
        (fun p => cumRowsFor (rows.filter (fun r => r.week != stub)) p
          (gridWeeks (rows.filter (fun r => r.week != stub))) 0 0) := by
  unfold compute_cumulative_metrics
  rw [hstub]

/-- The grid week list is strictly ascending. -/
theorem gridWeeks_pairwise (rows' : List WeeklyRow) :
    (gridWeeks rows').Pairwise (fun a b : Nat => a < b) := by
  have h1 : (gridWeeks rows').Pairwise (fun a b : Nat => a ≤ b) :=
    List.sorted_insertionSort _ _
  have h2 : (gridWeeks rows').Nodup :=
    (List.perm_insertionSort _ _).nodup_iff.mpr (List.nodup_dedup _)
  exact List.Sorted.lt_of_le h1 h2

/-- The grid player list has no duplicates. -/
theorem gridPlayers_nodup (rows' : List WeeklyRow) :
    (gridPlayers rows').Nodup :=
  (List.perm_insertionSort _ _).nodup_iff.mpr (List.nodup_dedup _)

/-- C8: `compute_cumulative_metrics` (1) emits no row for the stub
(maximum) week; (2) emits, for every player of the non-stub frame,
exactly one row per remaining week, in week order — the zero-filled
player × week grid; (3) carries in each row the running sums of the
zero-filled weekly counts up to that row's week, with cumulative rate =
cumulative negatives / cumulative total rounded to four decimals; and
(4) on one player with weekly counts (5, 50) and (10, 100) plus a
trailing stub week produces exactly the two rows with cumulative totals
50 and 150 and cumulative rates 0.1 and 0.1. -/
theorem compute_cumulative_metrics_spec :
    (∀ (rows : List WeeklyRow) (stub : Nat),
        (rows.map (fun r => r.week)).max? = some stub →
        ∀ r ∈ compute_cumulative_metrics rows, r.week ≠ stub) ∧
    (∀ (rows : List WeeklyRow) (stub : Nat),
        (rows.map (fun r => r.week)).max? = some stub →
        ∀ p ∈ gridPlayers (rows.filter (fun r => r.week != stub)),
          ((compute_cumulative_metrics rows).filter
              (fun r => r.player == p)).map (fun r => r.week) =
            gridWeeks (rows.filter (fun r => r.week != stub))) ∧
    (∀ (rows : List WeeklyRow) (stub : Nat),
        (rows.map (fun r => r.week)).max? = some stub →
        ∀ r ∈ compute_cumulative_metrics rows,
          r.cum_neg = cumNegUpTo (rows.filter (fun r => r.week != stub)) r.player
            (gridWeeks (rows.filter (fun r => r.week != stub))) r.week ∧
          r.cum_total = cumTotalUpTo (rows.filter (fun r => r.week != stub)) r.player
            (gridWeeks (rows.filter (fun r => r.week != stub))) r.week ∧
          r.cum_neg_rate = round4 ((r.cum_neg : ℚ) / (r.cum_total : ℚ))) ∧
    (compute_cumulative_metrics
        [⟨"P", 0, 5, 50⟩, ⟨"P", 1, 10, 100⟩, ⟨"P", 2, 3, 7⟩] =
      [⟨"P", 0, 5, 50, 1/10⟩, ⟨"P", 1, 15, 150, 1/10⟩]) := by
  refine ⟨?_, ?_, ?_, by decide!⟩
  · intro rows stub hstub r hr
    rw [compute_cumulative_eq rows stub hstub] at hr
    obtain ⟨p, hp, hrp⟩ := List.mem_flatMap.mp hr
    have hweek : r.week ∈ gridWeeks (rows.filter (fun r => r.week != stub)) :=
      (cumRowsFor_mem _ _ _ _ _ _ hrp).2
    have hmem1 := (List.perm_insertionSort _ _).mem_iff.mp hweek
    have hmem2 := List.mem_dedup.mp hmem1
    obtain ⟨row0, hrow0, hw0⟩ := List.mem_map.mp hmem2
    obtain ⟨_, hne⟩ := List.mem_filter.mp hrow0
    rw [← hw0]
    simpa using hne
  · intro rows stub hstub p hp
    rw [compute_cumulative_eq rows stub hstub]
    rw [filter_flatMap_player _ _
      (fun p' _ r hr => (cumRowsFor_mem _ _ _ _ _ _ hr).1)
      (gridPlayers_nodup _) p hp]
    exact cumRowsFor_weeks _ _ _ _ _
  · intro rows stub hstub r hr
    rw [compute_cumulative_eq rows stub hstub] at hr
    obtain ⟨p, hp, hrp⟩ := List.mem_flatMap.mp hr
    obtain ⟨hcn, hct, hrate⟩ :=
      cumRowsFor_cums _ _ _ 0 0 (gridWeeks_pairwise _) r hrp
    have hplayer : r.player = p := (cumRowsFor_mem _ _ _ _ _ _ hrp).1
    refine ⟨?_, ?_, hrate⟩
    · rw [hplayer]
      exact hcn.trans (Nat.zero_add _)
    · rw [hplayer]
      exact hct.trans (Nat.zero_add _)

/-- Witness for C8: the concrete two-week-plus-stub input. -/
theorem compute_cumulative_metrics_spec_witness :
    (∀ r ∈ compute_cumulative_metrics
        [⟨"P", 0, 5, 50⟩, ⟨"P", 1, 10, 100⟩, ⟨"P", 2, 3, 7⟩], r.week ≠ 2) ∧
    compute_cumulative_metrics
        [⟨"P", 0, 5, 50⟩, ⟨"P", 1, 10, 100⟩, ⟨"P", 2, 3, 7⟩] =
      [⟨"P", 0, 5, 50, 1/10⟩, ⟨"P", 1, 15, 150, 1/10⟩] :=
  ⟨compute_cumulative_metrics_spec.1 _ 2 (by decide),
   compute_cumulative_metrics_spec.2.2.2⟩

end Aggregation

namespace ArcticShift

/-- Every record the paginated fetch yields from cursor `a` has a
timestamp at least `a`, provided the archive serves only records at or
after the requested cursor. -/
theorem fetchPaginated_ge (page : Nat → Nat → List ARec)
    (hrange : ∀ a b r, r ∈ page a b → a ≤ r.created_utc) :
    ∀ (fuel a b : Nat) (r : ARec),
      r ∈ fetchPaginated page fuel a b → a ≤ r.created_utc := by
  intro fuel
  induction fuel with
  | zero => intro a b r hr; cases hr
  | succ n ih =>
    intro a b r hr
    simp only [fetchPaginated] at hr
    by_cases hab : a < b
    · rw [if_pos hab] at hr
      cases hlast : (page a b).getLast? with
      | none => rw [hlast] at hr; cases hr
      | some last =>
        rw [hlast] at hr
        rcases List.mem_append.mp hr with hcur | hrec
        · exact hrange a b r hcur
        · have h1 := ih _ _ _ hrec
          have h2 : a ≤ last.created_utc :=
            hrange a b last (List.mem_of_getLast?_eq_some hlast)
          omega
    · rw [if_neg hab] at hr; cases hr

/-- In a list sorted by ascending timestamp, the last element has the
maximal timestamp. -/
theorem le_getLast_of_pairwise :
    ∀ {l : List ARec},
      l.Pairwise (fun x y => x.created_utc ≤ y.created_utc) →
      ∀ {last : ARec}, l.getLast? = some last →
      ∀ r ∈ l, r.created_utc ≤ last.created_utc := by
  intro l
  induction l with
  | nil => intro _ _ hl; cases hl
  | cons x xs ih =>
    intro hp last hl r hr
    cases xs with
    | nil =>
      have hx : x = last := by
        simpa using hl
      rcases List.mem_cons.mp hr with rfl | hr'
      · exact hx ▸ Nat.le_refl _
      · cases hr'
    | cons y ys =>
      rw [List.getLast?_cons_cons] at hl
      obtain ⟨hx_all, hp'⟩ := List.pairwise_cons.mp hp
      rcases List.mem_cons.mp hr with rfl | hr'
      · exact hx_all last (List.mem_of_getLast?_eq_some hl)
      · exact ih hp' hl r hr'

/-- C9: on a non-empty page the loop advances the cursor to the last
record's timestamp plus one — strictly past every record of the page —
and, for an archive stable between calls that serves records in
ascending timestamp order within the requested range, no record of the
page recurs in the rest of the stream, nor in a re-fetch of the range
resumed from that cursor. -/
theorem fetch_paginated_cursor_no_refetch
    (page : Nat → Nat → List ARec)
    (hrange : ∀ a b r, r ∈ page a b → a ≤ r.created_utc)
    (hsorted : ∀ a b,
      (page a b).Pairwise (fun x y => x.created_utc ≤ y.created_utc))
    (a b fuel : Nat) (last : ARec)
    (hab : a < b) (hlast : (page a b).getLast? = some last) :
    fetchPaginated page (fuel + 1) a b =
      page a b ++ fetchPaginated page fuel (last.created_utc + 1) b ∧
    ∀ r ∈ page a b, r.created_utc < last.created_utc + 1 ∧
      ∀ r' ∈ fetchPaginated page fuel (last.created_utc + 1) b,
        r.created_utc < r'.created_utc ∧ r ≠ r' := by
  constructor
  · simp only [fetchPaginated]
    rw [if_pos hab, hlast]
  · intro r hr
    have hr_le : r.created_utc ≤ last.created_utc :=
      le_getLast_of_pairwise (hsorted a b) hlast r hr
    refine ⟨Nat.lt_succ_of_le hr_le, ?_⟩
    intro r' hr'
    have h1 : last.created_utc + 1 ≤ r'.created_utc :=
      fetchPaginated_ge page hrange fuel _ b r' hr'
    have hlt : r.created_utc < r'.created_utc := by omega
    exact ⟨hlt, fun he => (Nat.ne_of_lt hlt) (congrArg ARec.created_utc he)⟩

/-- Witness for C9 on the two-record archive: the first page (records at
10 and 20) advances the cursor to 21, and nothing fetched from 21 on
repeats a record of the page. -/
theorem fetch_paginated_cursor_no_refetch_witness :
    (fetchPaginated samplePage 6 0 100 =
      samplePage 0 100 ++ fetchPaginated samplePage 5 21 100) ∧
    ∀ r ∈ samplePage 0 100, r.created_utc < 21 ∧
      ∀ r' ∈ fetchPaginated samplePage 5 21 100,
        r.created_utc < r'.created_utc ∧ r ≠ r' :=
  fetch_paginated_cursor_no_refetch samplePage
    (fun a b r hr => by
      have h := (List.mem_filter.mp hr).2
      simp only [Bool.and_eq_true, decide_eq_true_eq] at h
      exact h.1)
    (fun a b => List.Pairwise.sublist (List.filter_sublist _) (by decide))
    0 100 5 ⟨20, "y"⟩ (by decide) (by decide)

end ArcticShift

namespace Processors

/-- `bumpCounter` succeeds exactly when the key has a counter. -/
theorem bumpCounter_some_of_key (l : List (String × Nat)) (name : String)
    (h : l.any (fun kv => kv.1 == name) = true) :
    ∃ l', bumpCounter l name = some l' := by
  induction l with
  | nil => cases h
  | cons kv rest ih =>
    obtain ⟨k, v⟩ := kv
    cases hk : (k == name) with
    | true => exact ⟨(k, v + 1) :: rest, by simp [bumpCounter, hk]⟩
    | false =>
      simp only [List.any_cons, hk, Bool.false_or] at h
      obtain ⟨l', hl'⟩ := ih h
      exact ⟨(k, v) :: l', by simp [bumpCounter, hk, hl']⟩

/-- `bumpCounter` increments exactly the named counter: the key set is
unchanged, the named counter grows by one, every other counter is
untouched, and the total over all counters grows by one. -/
theorem bumpCounter_spec :
    ∀ (l l' : List (String × Nat)) (name : String),
      bumpCounter l name = some l' →
      l'.map Prod.fst = l.map Prod.fst ∧
      l'.lookup name = (l.lookup name).map (fun v => v + 1) ∧
      (∀ other, other ≠ name → l'.lookup other = l.lookup other) ∧
      (l'.map Prod.snd).sum = (l.map Prod.snd).sum + 1 := by
  intro l
  induction l with
  | nil => intro l' name h; cases h
  | cons kv rest ih =>
    obtain ⟨k, v⟩ := kv
    intro l' name h
    cases hk : (k == name) with
    | true =>
      have hkeq : k = name := by simpa using hk
      simp only [bumpCounter, hk] at h
      cases h
      refine ⟨rfl, ?_, ?_, by simp [Nat.add_right_comm]⟩
      · subst hkeq
        rw [List.lookup_cons, List.lookup_cons]
        simp
      · intro other hother
        rw [List.lookup_cons, List.lookup_cons]
        have hok : (other == k) = false := by
          simp only [beq_eq_false_iff_ne]
          exact fun hh => hother (hh.trans hkeq)
        rw [hok]
    | false =>
      simp only [bumpCounter, hk] at h
      cases hrec : bumpCounter rest name with
      | none => rw [hrec] at h; cases h
      | some rest' =>
        rw [hrec] at h
        cases h
        obtain ⟨hkeys, hself, hother, hsum⟩ := ih rest' name hrec
        refine ⟨by simp [hkeys], ?_, ?_, by simp [hsum, Nat.add_assoc]⟩
        · rw [List.lookup_cons, List.lookup_cons]
          have hnk : (name == k) = false := by
            simp only [beq_eq_false_iff_ne]
            have hne := (beq_eq_false_iff_ne (a := k) (b := name)).mp hk
            exact fun hh => hne hh.symm
          rw [hnk]
          exact hself
        · intro other hother'
          rw [List.lookup_cons, List.lookup_cons]
          cases hok : (other == k) with
          | true => rfl
          | false => exact hother other hother'

/-- The rejecting step reported by `runChain` is one of the steps. -/
theorem runChain_error_mem {α : Type} :
    ∀ (steps : List (String × (α → Option α))) (c : α) (name : String),
      runChain steps c = .error name → ∃ fn, (name, fn) ∈ steps := by
  intro steps
  induction steps with
  | nil => intro c name h; cases h
  | cons s rest ih =>
    obtain ⟨nm, fn⟩ := s
    intro c name h
    simp only [runChain] at h
    cases hfc : fn c with
    | none =>
      rw [hfc] at h
      cases h
      exact ⟨fn, List.mem_cons_self _ _⟩
    | some c' =>
      rw [hfc] at h
      obtain ⟨fn', hfn'⟩ := ih c' name h
      exact ⟨fn', List.mem_cons_of_mem _ hfn'⟩

/-- The `rejected` list after `add_step`. -/
theorem add_step_rejected {α : Type} (p : CommentPipeline α) (name : String)
    (fn : α → Option α) :
    (add_step p name fn).rejected =
      if p.rejected.any (fun kv => kv.1 == name) = true then p.rejected
      else p.rejected ++ [(name, 0)] := rfl

/-- `add_step` folding: the steps accumulate in order, the numeric stats
are untouched, counters keep their sum, and afterwards every added step
name has a counter. -/
theorem mkPipeline_foldl {α : Type} :
    ∀ (steps : List (String × (α → Option α))) (p : CommentPipeline α),
      (steps.foldl (fun q s => add_step q s.1 s.2) p).steps = p.steps ++ steps ∧
      (steps.foldl (fun q s => add_step q s.1 s.2) p).total = p.total ∧
      (steps.foldl (fun q s => add_step q s.1 s.2) p).accepted = p.accepted ∧
      ((steps.foldl (fun q s => add_step q s.1 s.2) p).rejected.map Prod.snd).sum =
        (p.rejected.map Prod.snd).sum ∧
      (∀ nm, p.rejected.any (fun kv => kv.1 == nm) = true →
        (steps.foldl (fun q s => add_step q s.1 s.2) p).rejected.any
          (fun kv => kv.1 == nm) = true) ∧
      (∀ nm fn, (nm, fn) ∈ steps →
        (steps.foldl (fun q s => add_step q s.1 s.2) p).rejected.any
          (fun kv => kv.1 == nm) = true) := by
  intro steps
  induction steps with
  | nil =>
    intro p
    exact ⟨by simp, rfl, rfl, rfl, fun nm h => h, fun nm fn h => by cases h⟩
  | cons s rest ih =>
    obtain ⟨nm0, fn0⟩ := s
    intro p
    obtain ⟨hsteps, htot, hacc, hsum, hmono, hall⟩ := ih (add_step p nm0 fn0)
    have hadd_any : ∀ nm, p.rejected.any (fun kv => kv.1 == nm) = true →
        (add_step p nm0 fn0).rejected.any (fun kv => kv.1 == nm) = true := by
      intro nm h
      rw [add_step_rejected]
      by_cases hin : p.rejected.any (fun kv => kv.1 == nm0) = true
      · rw [if_pos hin]; exact h
      · rw [if_neg hin, List.any_append, h, Bool.true_or]
    have hadd_self : (add_step p nm0 fn0).rejected.any
        (fun kv => kv.1 == nm0) = true := by
      rw [add_step_rejected]
      by_cases hin : p.rejected.any (fun kv => kv.1 == nm0) = true
      · rw [if_pos hin]; exact hin
      · rw [if_neg hin, List.any_append]
        simp
    have hadd_sum : ((add_step p nm0 fn0).rejected.map Prod.snd).sum =
        (p.rejected.map Prod.snd).sum := by
      rw [add_step_rejected]
      by_cases hin : p.rejected.any (fun kv => kv.1 == nm0) = true
      · rw [if_pos hin]
      · rw [if_neg hin]
        simp
    have hadd_steps : (add_step p nm0 fn0).steps = p.steps ++ [(nm0, fn0)] := rfl
    refine ⟨?_, ?_, ?_, ?_, ?_, ?_⟩
    · simp only [List.foldl_cons]
      rw [hsteps, hadd_steps, List.append_assoc]
      rfl
    · simp only [List.foldl_cons]
      exact htot
    · simp only [List.foldl_cons]
      exact hacc
    · simp only [List.foldl_cons]
      rw [hsum, hadd_sum]
    · intro nm h
      simp only [List.foldl_cons]
      exact hmono nm (hadd_any nm h)
    · intro nm fn hmem
      simp only [List.foldl_cons]
      rcases List.mem_cons.mp hmem with heq | hmem'
      · cases heq
        exact hmono nm0 hadd_self
      · exact hall nm fn hmem'

/-- A counter list with the same key list as another has a counter for
every key the other has. -/
theorem any_key_of_map_fst_eq (l1 l2 : List (String × Nat)) (nm : String)
    (hmap : l1.map Prod.fst = l2.map Prod.fst)
    (h : l2.any (fun kv => kv.1 == nm) = true) :
    l1.any (fun kv => kv.1 == nm) = true := by
  rw [List.any_eq_true] at h ⊢
  obtain ⟨kv, hkv, hbeq⟩ := h
  have hmem : kv.1 ∈ l1.map Prod.fst := by
    rw [hmap]
    exact List.mem_map.mpr ⟨kv, hkv, rfl⟩
  obtain ⟨kv', hkv', hfst⟩ := List.mem_map.mp hmem
  exact ⟨kv', hkv', by rw [hfst]; exact hbeq⟩

/-- One `process` call: it succeeds on a pipeline whose step counters
are all registered, increments `total` by one, and increments exactly
one of `accepted` or the rejecting step's counter. -/
theorem process_spec {α : Type} (p : CommentPipeline α) (c : α)
    (hkeys : ∀ nm fn, (nm, fn) ∈ p.steps →
      p.rejected.any (fun kv => kv.1 == nm) = true) :
    ∃ out p', process p c = some (out, p') ∧
      p'.total = p.total + 1 ∧
      p'.steps = p.steps ∧
      p'.accepted + (p'.rejected.map Prod.snd).sum =
        p.accepted + (p.rejected.map Prod.snd).sum + 1 ∧
      p'.rejected.map Prod.fst = p.rejected.map Prod.fst ∧
      ((p'.accepted = p.accepted + 1 ∧ p'.rejected = p.rejected) ∨
       (p'.accepted = p.accepted ∧ ∃ nm, (∃ fn, (nm, fn) ∈ p.steps) ∧
          bumpCounter p.rejected nm = some p'.rejected)) := by
  cases hrun : runChain p.steps c with
  | ok c' =>
    refine ⟨some c', { p with total := p.total + 1, accepted := p.accepted + 1 },
      ?_, rfl, rfl, ?_, rfl, Or.inl ⟨rfl, rfl⟩⟩
    · simp only [process, hrun]
    · simp [Nat.add_right_comm]
  | error nm =>
    obtain ⟨fn, hfn⟩ := runChain_error_mem p.steps c nm hrun
    obtain ⟨l', hl'⟩ := bumpCounter_some_of_key p.rejected nm (hkeys nm fn hfn)
    obtain ⟨hkeysEq, _, _, hsum⟩ := bumpCounter_spec p.rejected l' nm hl'
    refine ⟨none, { p with total := p.total + 1, rejected := l' },
      ?_, rfl, rfl, ?_, hkeysEq, Or.inr ⟨rfl, nm, ⟨fn, hfn⟩, hl'⟩⟩
    · simp only [process, hrun, hl']
    · show p.accepted + (List.map Prod.snd l').sum =
        p.accepted + (List.map Prod.snd p.rejected).sum + 1
      rw [hsum]
      omega

/-- `processAll` over a well-formed pipeline: no `KeyError`, the sum
invariant moves in lockstep with `total`, and `total` grows by the
number of records processed. -/
theorem processAll_spec {α : Type} :
    ∀ (comments : List α) (p : CommentPipeline α),
      (∀ nm fn, (nm, fn) ∈ p.steps →
        p.rejected.any (fun kv => kv.1 == nm) = true) →
      ∃ p', processAll p comments = some p' ∧
        p'.total = p.total + comments.length ∧
        p'.accepted + (p'.rejected.map Prod.snd).sum =
          p.accepted + (p.rejected.map Prod.snd).sum + comments.length := by
  intro comments
  induction comments with
  | nil => intro p hkeys; exact ⟨p, rfl, rfl, rfl⟩
  | cons c cs ih =>
    intro p hkeys
    obtain ⟨out, p1, hproc, htot, hsteps, hsum, hkeysEq, _⟩ := process_spec p c hkeys
    have hkeys1 : ∀ nm fn, (nm, fn) ∈ p1.steps →
        p1.rejected.any (fun kv => kv.1 == nm) = true := by
      intro nm fn hmem
      rw [hsteps] at hmem
      have h := hkeys nm fn hmem
      exact any_key_of_map_fst_eq p1.rejected p.rejected nm hkeysEq h
    obtain ⟨p', hall, htot', hsum'⟩ := ih p1 hkeys1
    refine ⟨p', ?_, ?_, ?_⟩
    · simp only [processAll, hproc]
      exact hall
    · rw [htot', htot]
      simp only [List.length_cons]
      omega
    · rw [hsum', hsum]
      simp only [List.length_cons]
      omega

end Processors

namespace Processors

/-- C10: starting from a pipeline whose steps were all added before
processing began, any sequence of `process` calls keeps
`total = accepted + Σ rejected_<step>` with `total` counting the calls;
each single call increments `total` by exactly one and exactly one of
either `accepted` or the rejecting step's counter (`bumpCounter` touches
exactly the named counter, as the last part states). -/
theorem comment_pipeline_counter_invariant {α : Type}
    (steps : List (String × (α → Option α))) (comments : List α) :
    (∃ p', processAll (mkPipeline steps) comments = some p' ∧
        p'.total = comments.length ∧
        p'.total = p'.accepted + sumRejected p') ∧
    (∀ (p : CommentPipeline α) (c : α),
        (∀ nm fn, (nm, fn) ∈ p.steps →
          p.rejected.any (fun kv => kv.1 == nm) = true) →
        ∀ out p', process p c = some (out, p') →
          p'.total = p.total + 1 ∧
          ((p'.accepted = p.accepted + 1 ∧ p'.rejected = p.rejected) ∨
           (p'.accepted = p.accepted ∧ ∃ nm, (∃ fn, (nm, fn) ∈ p.steps) ∧
              bumpCounter p.rejected nm = some p'.rejected))) ∧
    (∀ (l l' : List (String × Nat)) (nm : String),
        bumpCounter l nm = some l' →
        l'.map Prod.fst = l.map Prod.fst ∧
        l'.lookup nm = (l.lookup nm).map (fun v => v + 1) ∧
        (∀ other, other ≠ nm → l'.lookup other = l.lookup other) ∧
        (l'.map Prod.snd).sum = (l.map Prod.snd).sum + 1) := by
  refine ⟨?_, ?_, bumpCounter_spec⟩
  · obtain ⟨hsteps, htot, hacc, hsum, _, hall⟩ :=
      mkPipeline_foldl steps (emptyPipeline α)
    have hkeys : ∀ nm fn, (nm, fn) ∈ (mkPipeline steps).steps →
        (mkPipeline steps).rejected.any (fun kv => kv.1 == nm) = true := by
      intro nm fn hmem
      rw [show (mkPipeline steps).steps = steps from hsteps] at hmem
      exact hall nm fn hmem
    have htot2 : (mkPipeline steps).total = 0 := htot
    have hacc2 : (mkPipeline steps).accepted = 0 := hacc
    have hsum2 : ((mkPipeline steps).rejected.map Prod.snd).sum = 0 := hsum
    obtain ⟨p', hrun, htot', hsum'⟩ := processAll_spec comments (mkPipeline steps) hkeys
    rw [hacc2, hsum2] at hsum'
    refine ⟨p', hrun, ?_, ?_⟩
    · rw [htot', htot2, Nat.zero_add]
    · rw [htot', htot2, Nat.zero_add]
      show comments.length = p'.accepted + (p'.rejected.map Prod.snd).sum
      omega
  · intro p c hkeys out p' hp
    obtain ⟨out2, p2, hproc, htot, _, _, _, hone⟩ := process_spec p c hkeys
    rw [hp] at hproc
    obtain ⟨h1, h2⟩ := Prod.mk.injEq _ _ _ _ ▸ (Option.some.injEq _ _ ▸ hproc)
    exact ⟨h2 ▸ htot, h2 ▸ hone⟩

/-- Witness for C10: one even-pass filter step over three records; the
theorem yields the final stats and their invariant. -/
theorem comment_pipeline_counter_invariant_witness :
    ∃ p', processAll (mkPipeline
        [("even_only", fun n => if n % 2 == 0 then some n else (none : Option Nat))])
        [0, 1, 2] = some p' ∧
      p'.total = 3 ∧ p'.total = p'.accepted + sumRejected p' := by
  obtain ⟨p', h1, h2, h3⟩ := (comment_pipeline_counter_invariant
    [("even_only", fun n => if n % 2 == 0 then some n else (none : Option Nat))]
    [0, 1, 2]).1
  exact ⟨p', h1, h2, h3⟩

end Processors
